import Mathlib

/-
Verification of the job-orchestration layer of the Echo stems plugin
(src/plugins/stems/app.py), a FastAPI service that separates an uploaded
audio file into stems via a Demucs model.

Shallow embedding notes:
* Job identifiers are produced by `uuid.uuid4()`; we model that fresh-name
  supply as a counter `ctr` in the system state (ids are `Nat`).  The only
  operations the code performs on ids are generation and equality tests.
* The global `separator` is loaded once in `lifespan` before the app serves
  requests and is never reassigned afterwards, so it is a fixed
  `Option Separator` parameter of the whole trace.
* Fallible external calls (`torchaudio.load`, resampling, `apply_model`,
  `mkdir`, `torchaudio.save`, `unlink`, `shutil.rmtree`, writing the upload)
  are fault-injection points: an environment record says whether each call
  returns normally or raises, and with which exception message.
* `process_separation` is an `async def` without any `await` in its body, so
  under asyncio's cooperative scheduling it runs atomically with respect to
  the HTTP handlers; observable system states are those between whole
  operations.  FastAPI background tasks run after the response, in dispatch
  order, which we model as a FIFO queue `pending` of worker tasks.
* Progress values (0.0, 0.2, 0.8, 1.0) are modelled as rationals; every
  comparison the claims make (ordering, equality with 1.0) is exact for
  these values in the source as well.
-/

namespace EchoStems

/-- Outcome of a fallible external call: a normal return or a raised
exception carrying its message (`str(e)` in the source). -/
inductive StepResult (α : Type) where
  | ok : α → StepResult α
  | exn : String → StepResult α
deriving DecidableEq

/-- A waveform tensor of shape (channels, samples): a list of channels. -/
abbrev Waveform := List (List ℚ)

/-- The loaded Demucs model, as the worker uses it: its required sample rate
(`separator.samplerate`) and its declared stem names (`separator.sources`). -/
structure Separator where
  samplerate : Nat
  sources : List String
deriving DecidableEq

/-- The `JobStatus` pydantic model (status record stored in `jobs`). -/
structure JobStatus where
  job_id : Nat
  status : String
  progress : Option ℚ
  error : Option String
  stems : Option (List (String × String))
deriving DecidableEq

/-- The on-disk state: the set of existing files and of existing
per-job output directories under DATA_DIR. -/
structure FS where
  files : List String
  dirs : List String
deriving DecidableEq

/-- A dispatched-but-not-yet-run background task
(`background_tasks.add_task(process_separation, job_id, input_path, output_dir)`). -/
structure WorkerTask where
  jobId : Nat
  inputPath : String
  outputDir : String
deriving DecidableEq

/-- The whole mutable state of the service: the `jobs` dict, the queue of
dispatched background tasks, the filesystem, and the fresh-id supply. -/
structure SysState where
  jobs : List (Nat × JobStatus)
  pending : List WorkerTask
  fs : FS
  ctr : Nat
deriving DecidableEq

/-! ### Dictionary operations (the `jobs` dict and the `stems` dict) -/

/-- Lookup in the `jobs` dict. -/
def alookup : List (Nat × JobStatus) → Nat → Option JobStatus
  | [], _ => none
  | p :: ps, id => if p.1 = id then some p.2 else alookup ps id

/-- Field update of one entry of the `jobs` dict
(`jobs[job_id].field = ...`). -/
def aupdate (f : JobStatus → JobStatus) : List (Nat × JobStatus) → Nat → List (Nat × JobStatus)
  | [], _ => []
  | p :: ps, id => if p.1 = id then (p.1, f p.2) :: aupdate f ps id else p :: aupdate f ps id

/-- Key removal from the `jobs` dict (`del jobs[job_id]`). -/
def adelete : List (Nat × JobStatus) → Nat → List (Nat × JobStatus)
  | [], _ => []
  | p :: ps, id => if p.1 = id then adelete ps id else p :: adelete ps id

/-- Lookup in a string-keyed dict (the `stems` mapping). -/
def alookupS : List (String × String) → String → Option String
  | [], _ => none
  | p :: ps, k => if p.1 = k then some p.2 else alookupS ps k

/-- Insert-or-update in a string-keyed dict (`stems[stem_name] = path`). -/
def dictInsert (m : List (String × String)) (k v : String) : List (String × String) :=
  if m.any (fun p => p.1 = k) then m.map (fun p => if p.1 = k then (k, v) else p)
  else m ++ [(k, v)]

/-- Add a path to a set of existing paths (writing a file creates it;
rewriting leaves the set unchanged). -/
def insertStr (x : String) (xs : List String) : List String :=
  if x ∈ xs then xs else xs ++ [x]

/-! ### Paths (relative to DATA_DIR) -/

/-- `input_dir / f"{job_id}_{file.filename}"`. -/
def inputPathOf (id : Nat) (filename : String) : String :=
  "input/" ++ toString id ++ "_" ++ filename

/-- `DATA_DIR / "output" / job_id`. -/
def outputDirOf (id : Nat) : String :=
  "output/" ++ toString id

/-- `output_dir / f"{stem_name}.wav"`. -/
def stemPathOf (od name : String) : String :=
  od ++ "/" ++ name ++ ".wav"

/-! ### Worker effects

`process_separation` performs a sequence of elementary mutations: field
assignments on its own job record and filesystem operations.  We record
that sequence explicitly so the order of side effects inside one run is
itself a verified object. -/

/-- One elementary side effect of the worker. -/
inductive Eff where
  | setStatus (s : String)
  | setProgress (p : ℚ)
  | setError (m : String)
  | setStems (m : List (String × String))
  | mkdirDir (d : String)
  | writeFile (p : String)
  | deleteFile (p : String)
deriving DecidableEq

/-- Effect of one elementary mutation on the job record it targets. -/
def applyEffRec (j : JobStatus) : Eff → JobStatus
  | .setStatus s => { j with status := s }
  | .setProgress p => { j with progress := some p }
  | .setError m => { j with error := some m }
  | .setStems m => { j with stems := some m }
  | .mkdirDir _ => j
  | .writeFile _ => j
  | .deleteFile _ => j

/-- Effect of one elementary mutation on the filesystem. -/
def applyEffFS (fs : FS) : Eff → FS
  | .setStatus _ => fs
  | .setProgress _ => fs
  | .setError _ => fs
  | .setStems _ => fs
  | .mkdirDir d => { fs with dirs := insertStr d fs.dirs }
  | .writeFile p => { fs with files := insertStr p fs.files }
  | .deleteFile p => { fs with files := fs.files.filter (fun q => ¬ q = p) }

/-- Run a sequence of worker effects against the system state; record
effects target the job `id`, filesystem effects target `fs`. -/
def applyEffs (st : SysState) (id : Nat) (effs : List Eff) : SysState :=
  { st with jobs := aupdate (fun j => effs.foldl applyEffRec j) st.jobs id,
            fs := effs.foldl applyEffFS st.fs }

/-! ### The Separation Worker (`process_separation`) -/

/-- Fault-injection environment for one worker run: the result of each
external call the worker makes. -/
structure WorkerEnv where
  load : StepResult (Waveform × Nat)
  resample : Nat → Nat → Waveform → StepResult Waveform
  applyModel : Waveform → StepResult Unit
  mkdir : StepResult Unit
  save : String → StepResult Unit
  unlink : StepResult Unit

/-- Lines 136-140: resample only when the source sample rate differs from
the model's. -/
def resampleIfNeeded (s : Separator) (env : WorkerEnv) (w : Waveform) (sr : Nat) :
    StepResult Waveform :=
  if sr ≠ s.samplerate then env.resample sr s.samplerate w else .ok w

/-- Lines 142-146: coerce the channel count to exactly two.  A mono
waveform of shape (1, n) is `repeat`ed into (2, n) (both channels equal to
the original one); more than two channels are sliced to the first two. -/
def ensureStereo (w : Waveform) : Waveform :=
  if w.length = 1 then w ++ w
  else if 2 < w.length then w.take 2
  else w

/-- Lines 165-170: write one file per stem name, building the
`stems[stem_name] = str(stem_path)` dict as we go.  Returns the filesystem
effects performed, the dict built so far, and the message of the first
exception if a save raised. -/
def saveStems (env : WorkerEnv) (od : String) (acc : List (String × String)) :
    List String → List Eff × List (String × String) × Option String
  | [] => ([], acc, none)
  | name :: rest =>
    match env.save name with
    | .exn m => ([], acc, some m)
    | .ok _ =>
      let path := stemPathOf od name
      let r := saveStems env od (dictInsert acc name path) rest
      (.writeFile path :: r.1, r.2.1, r.2.2)

/-- Lines 131-177, from audio loading onward (the pipeline inside the
`try` block after the model check): returns the effects performed before
any exception, the final stems dict, and the message of the raised
exception when one was raised.  Tensor reshaping (`unsqueeze`, `.to`) is
pure and has no observable effect. -/
def workerBody (s : Separator) (env : WorkerEnv) (ip od : String) :
    List Eff × List (String × String) × Option String :=
  match env.load with
  | .exn m => ([], [], some m)
  | .ok (waveform, sample_rate) =>
    match resampleIfNeeded s env waveform sample_rate with
    | .exn m => ([], [], some m)
    | .ok w1 =>
      match env.applyModel (ensureStereo w1) with
      | .exn m => ([.setProgress (1/5)], [], some m)
      | .ok _ =>
        match env.mkdir with
        | .exn m => ([.setProgress (1/5), .setProgress (4/5)], [], some m)
        | .ok _ =>
          match saveStems env od [] s.sources with
          | (effs, _, some m) =>
            ([.setProgress (1/5), .setProgress (4/5), .mkdirDir od] ++ effs, [], some m)
          | (effs, stems, none) =>
            match env.unlink with
            | .exn m =>
              ([.setProgress (1/5), .setProgress (4/5), .mkdirDir od] ++ effs, [], some m)
            | .ok _ =>
              ([.setProgress (1/5), .setProgress (4/5), .mkdirDir od] ++ effs
                 ++ [.deleteFile ip, .setStatus "completed", .setProgress 1, .setStems stems],
               stems, none)

/-- The full effect sequence of one worker run whose job record exists and
whose model is loaded: the prologue (lines 122-123), the pipeline, and on a
raised exception the handler of lines 181-184. -/
def workerEffs (s : Separator) (env : WorkerEnv) (ip od : String) : List Eff :=
  match workerBody s env ip od with
  | (effs, _, some m) =>
    [.setStatus "processing", .setProgress 0] ++ effs ++ [.setStatus "failed", .setError m]
  | (effs, _, none) =>
    [.setStatus "processing", .setProgress 0] ++ effs

/-- Execution of `process_separation` once the job record exists and the
separator is loaded. -/
def workerRun (s : Separator) (env : WorkerEnv) (jid : Nat) (ip od : String)
    (st : SysState) : SysState :=
  applyEffs st jid (workerEffs s env ip od)

/-- Lines 122-126 with a missing model: the prologue runs, the
`RuntimeError("Model not loaded")` is raised and caught by the handler. -/
def modelNotLoadedRun (jid : Nat) (st : SysState) : SysState :=
  applyEffs st jid [.setStatus "processing", .setProgress 0,
                    .setStatus "failed", .setError "Model not loaded"]

/-- `process_separation(job_id, input_path, output_dir)`.  The second
component records whether an exception escaped the worker: when the job
record is absent, the very first statement `jobs[job_id].status = ...`
raises `KeyError`, and the handler's own `jobs[job_id].status = "failed"`
raises it again, so it propagates; otherwise the single `try/except`
boundary absorbs every exception. -/
def processSeparation (sep : Option Separator) (env : WorkerEnv) (jid : Nat)
    (ip od : String) (st : SysState) : SysState × Bool :=
  match alookup st.jobs jid with
  | none => (st, true)
  | some _ =>
    match sep with
    | none => (modelNotLoadedRun jid st, false)
    | some s => (workerRun s env jid ip od st, false)

/-! ### The Job Service Facade (HTTP handlers) -/

/-- Fault-injection environment for one submission: whether persisting the
uploaded bytes (`await file.read()` plus the `open`/`write`) raises, and
whether a failed write left a partially created file behind. -/
structure SubmitEnv where
  write : StepResult Unit
  createdOnFail : Bool

/-- Response of `POST /separate`. -/
inductive SubmitResult where
  | ok (jobId : Nat) (status : String)
  | err (code : Nat) (detail : String)
deriving DecidableEq

/-- `separate_audio` (lines 187-228). -/
def separate_audio (sep : Option Separator) (env : SubmitEnv) (filename : String)
    (st : SysState) : SysState × SubmitResult :=
  match sep with
  | none => (st, .err 503 "Model not loaded")
  | some _ =>
    let job_id := st.ctr
    let input_path := inputPathOf job_id filename
    match env.write with
    | .exn m =>
      let fs2 := if env.createdOnFail then { st.fs with files := insertStr input_path st.fs.files }
                 else st.fs
      ({ st with ctr := st.ctr + 1, fs := fs2 },
       .err 500 ("Failed to save file: " ++ m))
    | .ok _ =>
      ({ st with
          ctr := st.ctr + 1,
          fs := { st.fs with files := insertStr input_path st.fs.files },
          jobs := st.jobs ++ [(job_id, ⟨job_id, "pending", some 0, none, none⟩)],
          pending := st.pending ++ [⟨job_id, input_path, outputDirOf job_id⟩] },
       .ok job_id "pending")

/-- Lookup of a job record (reading the `jobs` dict). -/
def lookupJob (st : SysState) (id : Nat) : Option JobStatus :=
  alookup st.jobs id

/-- `get_job_status` (lines 231-237). -/
def get_job_status (st : SysState) (id : Nat) : Except (Nat × String) JobStatus :=
  match lookupJob st id with
  | none => .error (404, "Job not found")
  | some j => .ok j

/-- A `FileResponse`: the served filesystem path, the declared media type,
and the download filename. -/
structure FileResp where
  path : String
  media_type : String
  filename : String
deriving DecidableEq

/-- `download_stem` (lines 240-263).  `not job.stems or stem_name not in
job.stems` collapses to a failing dict lookup (an empty dict has no keys). -/
def download_stem (st : SysState) (job_id : Nat) (stem_name : String) :
    Except (Nat × String) FileResp :=
  match lookupJob st job_id with
  | none => .error (404, "Job not found")
  | some job =>
    if job.status ≠ "completed" then .error (400, "Job not completed: " ++ job.status)
    else
      match job.stems with
      | none => .error (404, "Stem not found")
      | some m =>
        match alookupS m stem_name with
        | none => .error (404, "Stem not found")
        | some p =>
          if p ∈ st.fs.files then Except.ok ⟨p, "audio/wav", stem_name ++ ".wav"⟩
          else .error (404, "Stem file not found")

/-- Fault-injection environment for one deletion: whether `shutil.rmtree`
raises. -/
structure DeleteEnv where
  rmtree : StepResult Unit

/-- `shutil.rmtree(output_dir)`: remove the directory, everything under it,
and any subdirectories. -/
def removeTree (fs : FS) (d : String) : FS :=
  { files := fs.files.filter (fun p => ¬ (d ++ "/").isPrefixOf p),
    dirs := fs.dirs.filter (fun x => ¬ (x = d ∨ (d ++ "/").isPrefixOf x)) }

/-- Removal of a job record from the store. -/
def removeJob (st : SysState) (id : Nat) : SysState :=
  { st with jobs := adelete st.jobs id }

/-- `delete_job` (lines 266-283).  `shutil.rmtree` is guarded by an
existence check but not by a `try`: if it raises, the exception escapes the
handler (an HTTP 500) before `del jobs[job_id]` runs. -/
def delete_job (env : DeleteEnv) (st : SysState) (id : Nat) :
    SysState × Except (Nat × String) (String × Nat) :=
  match alookup st.jobs id with
  | none => (st, .error (404, "Job not found"))
  | some _ =>
    let od := outputDirOf id
    if od ∈ st.fs.dirs then
      match env.rmtree with
      | .exn m => (st, .error (500, m))
      | .ok _ => (removeJob { st with fs := removeTree st.fs od } id, Except.ok ("deleted", id))
    else (removeJob st id, Except.ok ("deleted", id))

/-! ### System traces

One trace runs under one fixed `sep : Option Separator` (the model is
loaded once at startup and never reassigned).  State-changing operations
are submissions, runs of the oldest dispatched background task, and
deletions; `get_job_status` and `download_stem` are pure reads. -/

/-- A state-changing operation, with its fault-injection choices. -/
inductive Event where
  | submit (env : SubmitEnv) (filename : String)
  | runWorker (env : WorkerEnv)
  | deleteJob (env : DeleteEnv) (id : Nat)

/-- One step of the system. -/
def step (sep : Option Separator) (st : SysState) : Event → SysState
  | .submit env filename => (separate_audio sep env filename st).1
  | .runWorker env =>
    match st.pending with
    | [] => st
    | t :: rest =>
      (processSeparation sep env t.jobId t.inputPath t.outputDir
        { st with pending := rest }).1
  | .deleteJob env id => (delete_job env st id).1

/-- Run a list of events. -/
def run (sep : Option Separator) (st : SysState) : List Event → SysState
  | [] => st
  | e :: es => run sep (step sep st e) es

/-- Startup state: empty job store, no dispatched tasks, any initial
filesystem contents. -/
def initSt (fs : FS) : SysState :=
  { jobs := [], pending := [], fs := fs, ctr := 0 }

/-- The job record created at submission time. -/
def freshJob (id : Nat) : JobStatus :=
  ⟨id, "pending", some 0, none, none⟩

/-- The successive values a worker run writes into its job's `progress`
field, in write order. -/
def progressWrites (l : List Eff) : List ℚ :=
  l.filterMap (fun e => match e with | .setProgress p => some p | _ => none)

/-- The per-record invariant of the data model: `progress` is always a
fraction in [0,1] equal to 1 exactly on completion, and the presence of
`error`/`stems` is correlated with `status`. -/
def recordOk (j : JobStatus) : Prop :=
  (∃ p, j.progress = some p ∧ 0 ≤ p ∧ p ≤ 1 ∧ (p = 1 ↔ j.status = "completed")) ∧
  (j.status = "failed" → j.error.isSome ∧ j.stems = none) ∧
  (j.status = "completed" → j.stems.isSome ∧ j.error = none) ∧
  (j.status ≠ "failed" → j.status ≠ "completed" → j.error = none ∧ j.stems = none)

/-- Invariant of every reachable system state. -/
structure Inv (st : SysState) : Prop where
  idBound : ∀ id j, alookup st.jobs id = some j → id < st.ctr
  taskBound : ∀ t ∈ st.pending, t.jobId < st.ctr
  taskNodup : (st.pending.map WorkerTask.jobId).Nodup
  taskRecord : ∀ t ∈ st.pending, ∀ j, alookup st.jobs t.jobId = some j → j = freshJob t.jobId
  recOk : ∀ id j, alookup st.jobs id = some j → recordOk j

/-- Relation between an earlier and a later observation point of the same
trace: ids only grow, a record present later was present earlier, its
progress never regressed, and a record once completed is never mutated. -/
def Obs (st st2 : SysState) : Prop :=
  st.ctr ≤ st2.ctr ∧
  ∀ id j2, id < st.ctr → alookup st2.jobs id = some j2 →
    ∃ j, alookup st.jobs id = some j ∧
      (∀ p, j.progress = some p → ∃ p2, j2.progress = some p2 ∧ p ≤ p2) ∧
      (j.status = "completed" → j2 = j)

/-! ### Concrete sample instances (used to exercise the definitions) -/

/-- A sample loaded model with two stems. -/
def sepC : Separator := ⟨44100, ["vocals", "drums"]⟩

/-- A sample stereo waveform. -/
def wavC : Waveform := [[1, 2], [3, 4]]

/-- A worker environment in which every external call succeeds. -/
def envOkW : WorkerEnv :=
  ⟨.ok (wavC, 44100), fun _ _ w => .ok w, fun _ => .ok (), .ok (), fun _ => .ok (), .ok ()⟩

/-- A worker environment in which audio decoding raises. -/
def envLoadFailW : WorkerEnv := { envOkW with load := .exn "decode error" }

/-- A submission whose upload is persisted successfully. -/
def subOk : SubmitEnv := ⟨.ok (), false⟩

/-- A submission whose upload write raises. -/
def subFail : SubmitEnv := ⟨.exn "disk full", false⟩

/-- An empty starting filesystem. -/
def fsE : FS := ⟨[], []⟩

/-- State after one successful submission. -/
def st1 : SysState := run (some sepC) (initSt fsE) [.submit subOk "a.wav"]

/-- State after that submission's worker ran with every external call
succeeding. -/
def st2 : SysState := run (some sepC) (initSt fsE) [.submit subOk "a.wav", .runWorker envOkW]

/-- The stems mapping the successful worker records for job 0. -/
def stemsC : List (String × String) :=
  [("vocals", "output/0/vocals.wav"), ("drums", "output/0/drums.wav")]

/-- The completed job record for job 0. -/
def jC : JobStatus := ⟨0, "completed", some 1, none, some stemsC⟩

/-! ### Laws of the dictionary operations -/

theorem alookup_append_some {l1 l2 : List (Nat × JobStatus)} {k : Nat} {v : JobStatus}
    (h : alookup l1 k = some v) : alookup (l1 ++ l2) k = some v := by
  induction l1 with
  | nil => simp [alookup] at h
  | cons p ps ih =>
    by_cases hp : p.1 = k
    · simp only [alookup, if_pos hp] at h
      simpa [alookup, hp] using h
    · simp only [alookup, if_neg hp] at h
      simpa [alookup, hp] using ih h

theorem alookup_append_none {l1 l2 : List (Nat × JobStatus)} {k : Nat}
    (h : alookup l1 k = none) : alookup (l1 ++ l2) k = alookup l2 k := by
  induction l1 with
  | nil => simp [alookup]
  | cons p ps ih =>
    by_cases hp : p.1 = k
    · simp [alookup, hp] at h
    · simp only [alookup, if_neg hp] at h
      simpa [alookup, hp] using ih h

theorem alookup_eq_none {l : List (Nat × JobStatus)} {k : Nat}
    (h : ∀ p ∈ l, p.1 ≠ k) : alookup l k = none := by
  induction l with
  | nil => rfl
  | cons p ps ih =>
    have hp : p.1 ≠ k := h p (by simp)
    simpa [alookup, hp] using ih (fun q hq => h q (by simp [hq]))

theorem alookup_single {k id : Nat} {v : JobStatus} :
    alookup [(k, v)] id = if k = id then some v else none := by
  by_cases h : k = id <;> simp [alookup, h]

theorem alookup_aupdate_self (f : JobStatus → JobStatus) (l : List (Nat × JobStatus)) (k : Nat) :
    alookup (aupdate f l k) k = (alookup l k).map f := by
  induction l with
  | nil => rfl
  | cons p ps ih =>
    by_cases hp : p.1 = k
    · simp [aupdate, alookup, hp]
    · simpa [aupdate, alookup, hp] using ih

theorem alookup_aupdate_ne (f : JobStatus → JobStatus) (l : List (Nat × JobStatus)) {k k2 : Nat}
    (h : k2 ≠ k) : alookup (aupdate f l k) k2 = alookup l k2 := by
  induction l with
  | nil => rfl
  | cons p ps ih =>
    by_cases hp : p.1 = k
    · simpa [aupdate, alookup, hp, Ne.symm h] using ih
    · by_cases hp2 : p.1 = k2
      · simp [aupdate, alookup, hp, hp2, h]
      · simpa [aupdate, alookup, hp, hp2] using ih

theorem alookup_adelete_self (l : List (Nat × JobStatus)) (k : Nat) :
    alookup (adelete l k) k = none := by
  induction l with
  | nil => rfl
  | cons p ps ih =>
    by_cases hp : p.1 = k <;> simpa [adelete, alookup, hp] using ih

theorem alookup_adelete_ne (l : List (Nat × JobStatus)) {k k2 : Nat}
    (h : k2 ≠ k) : alookup (adelete l k) k2 = alookup l k2 := by
  induction l with
  | nil => rfl
  | cons p ps ih =>
    by_cases hp : p.1 = k
    · simpa [adelete, alookup, hp, Ne.symm h] using ih
    · by_cases hp2 : p.1 = k2
      · simp [adelete, alookup, hp, hp2, h]
      · simpa [adelete, alookup, hp, hp2] using ih

/-! ### Laws of worker effects -/

theorem alookup_applyEffs_self (st : SysState) (id : Nat) (effs : List Eff) :
    alookup (applyEffs st id effs).jobs id
      = (alookup st.jobs id).map (fun j => effs.foldl applyEffRec j) :=
  alookup_aupdate_self _ _ _

theorem alookup_applyEffs_ne (st : SysState) (id : Nat) (effs : List Eff) {id2 : Nat}
    (h : id2 ≠ id) : alookup (applyEffs st id effs).jobs id2 = alookup st.jobs id2 :=
  alookup_aupdate_ne _ _ h

theorem foldl_rec_writeFiles {l : List Eff} (h : ∀ e ∈ l, ∃ p, e = Eff.writeFile p) :
    ∀ j : JobStatus, l.foldl applyEffRec j = j := by
  induction l with
  | nil => intro j; rfl
  | cons e es ih =>
    intro j
    obtain ⟨p, rfl⟩ := h e (by simp)
    simpa [applyEffRec] using ih (fun e he => h e (by simp [he])) j

/-! ### Laws of `saveStems` -/

theorem saveStems_effs (env : WorkerEnv) (od : String) :
    ∀ (names : List String) (acc : List (String × String)),
      ∀ e ∈ (saveStems env od acc names).1, ∃ p, e = Eff.writeFile p := by
  intro names
  induction names with
  | nil => intro acc e he; simp [saveStems] at he
  | cons n rest ih =>
    intro acc e he
    cases hs : env.save n with
    | exn m => simp [saveStems, hs] at he
    | ok u =>
      simp only [saveStems, hs] at he
      rcases List.mem_cons.mp he with rfl | he2
      · exact ⟨_, rfl⟩
      · exact ih _ e he2

theorem saveStems_none_effs (env : WorkerEnv) (od : String) :
    ∀ (names : List String) (acc : List (String × String)),
      (saveStems env od acc names).2.2 = none →
      (saveStems env od acc names).1 = names.map (fun n => Eff.writeFile (stemPathOf od n)) := by
  intro names
  induction names with
  | nil => intro acc _; simp [saveStems]
  | cons n rest ih =>
    intro acc h
    cases hs : env.save n with
    | exn m => simp [saveStems, hs] at h
    | ok u =>
      simp only [saveStems, hs] at h ⊢
      simpa using ih _ h

/-! ### Shape of the worker pipeline's effect sequence -/

theorem workerBody_cases (s : Separator) (env : WorkerEnv) (ip od : String) :
    (∃ m, workerBody s env ip od = ([], [], some m)) ∨
    (∃ m, workerBody s env ip od = ([.setProgress (1/5)], [], some m)) ∨
    (∃ m, workerBody s env ip od = ([.setProgress (1/5), .setProgress (4/5)], [], some m)) ∨
    (∃ m effs, workerBody s env ip od =
        ([.setProgress (1/5), .setProgress (4/5), .mkdirDir od] ++ effs, [], some m) ∧
        ∀ e ∈ effs, ∃ p, e = Eff.writeFile p) ∨
    (∃ stems, workerBody s env ip od =
        ([.setProgress (1/5), .setProgress (4/5), .mkdirDir od]
            ++ s.sources.map (fun n => Eff.writeFile (stemPathOf od n))
            ++ [.deleteFile ip, .setStatus "completed", .setProgress 1, .setStems stems],
         stems, none)) := by
  cases hl : env.load with
  | exn m => exact Or.inl ⟨m, by simp [workerBody, hl]⟩
  | ok wr =>
    obtain ⟨w, sr⟩ := wr
    cases hr : resampleIfNeeded s env w sr with
    | exn m => exact Or.inl ⟨m, by simp [workerBody, hl, hr]⟩
    | ok w1 =>
      cases ha : env.applyModel (ensureStereo w1) with
      | exn m => exact Or.inr (Or.inl ⟨m, by simp [workerBody, hl, hr, ha]⟩)
      | ok u =>
        cases hm : env.mkdir with
        | exn m => exact Or.inr (Or.inr (Or.inl ⟨m, by simp [workerBody, hl, hr, ha, hm]⟩))
        | ok u2 =>
          rcases hsv : saveStems env od [] s.sources with ⟨effs, stems, r⟩
          cases r with
          | some m =>
            refine Or.inr (Or.inr (Or.inr (Or.inl ⟨m, effs, ?_, ?_⟩)))
            · simp [workerBody, hl, hr, ha, hm, hsv]
            · intro e he
              have := saveStems_effs env od s.sources []
              rw [hsv] at this
              exact this e he
          | none =>
            cases hu : env.unlink with
            | exn m =>
              refine Or.inr (Or.inr (Or.inr (Or.inl ⟨m, effs, ?_, ?_⟩)))
              · simp [workerBody, hl, hr, ha, hm, hsv, hu]
              · intro e he
                have := saveStems_effs env od s.sources []
                rw [hsv] at this
                exact this e he
            | ok u3 =>
              refine Or.inr (Or.inr (Or.inr (Or.inr ⟨stems, ?_⟩)))
              have heq := saveStems_none_effs env od s.sources [] (by rw [hsv])
              rw [hsv] at heq
              have heq2 : effs = List.map (fun n => Eff.writeFile (stemPathOf od n)) s.sources := heq
              simp [workerBody, hl, hr, ha, hm, hsv, hu, heq2]

theorem map_writeFile_mem {f : String → String} {names : List String} :
    ∀ e ∈ names.map (fun n => Eff.writeFile (f n)), ∃ p, e = Eff.writeFile p := by
  intro e he
  simp only [List.mem_map] at he
  obtain ⟨n, _, rfl⟩ := he
  exact ⟨_, rfl⟩

/-! ### The job record produced by one worker run -/

theorem workerRun_jobs_ne (s : Separator) (env : WorkerEnv) (jid : Nat) (ip od : String)
    (st : SysState) {id2 : Nat} (h : id2 ≠ jid) :
    alookup (workerRun s env jid ip od st).jobs id2 = alookup st.jobs id2 :=
  alookup_applyEffs_ne st jid _ h

theorem workerRun_lookup_fail {s : Separator} {env : WorkerEnv} {ip od m : String}
    (hfail : (workerBody s env ip od).2.2 = some m)
    {st : SysState} {jid : Nat} {j : JobStatus} (hj : alookup st.jobs jid = some j) :
    ∃ q : ℚ, (q = 0 ∨ q = 1/5 ∨ q = 4/5) ∧
      alookup (workerRun s env jid ip od st).jobs jid =
        some { j with status := "failed", progress := some q, error := some m } := by
  have hlk : alookup (workerRun s env jid ip od st).jobs jid
      = some (List.foldl applyEffRec j (workerEffs s env ip od)) := by
    have h0 := alookup_applyEffs_self st jid (workerEffs s env ip od)
    rw [hj] at h0
    simpa [workerRun] using h0
  rcases workerBody_cases s env ip od with
    ⟨m2, hwb⟩ | ⟨m2, hwb⟩ | ⟨m2, hwb⟩ | ⟨m2, effs, hwb, hwf⟩ | ⟨stems, hwb⟩
  · rw [hwb] at hfail; simp at hfail; subst hfail
    refine ⟨0, Or.inl rfl, ?_⟩
    simp only [workerEffs, hwb] at hlk
    simpa [applyEffRec] using hlk
  · rw [hwb] at hfail; simp at hfail; subst hfail
    refine ⟨1/5, Or.inr (Or.inl rfl), ?_⟩
    simp only [workerEffs, hwb] at hlk
    simpa [applyEffRec] using hlk
  · rw [hwb] at hfail; simp at hfail; subst hfail
    refine ⟨4/5, Or.inr (Or.inr rfl), ?_⟩
    simp only [workerEffs, hwb] at hlk
    simpa [applyEffRec] using hlk
  · rw [hwb] at hfail; simp at hfail; subst hfail
    refine ⟨4/5, Or.inr (Or.inr rfl), ?_⟩
    simp only [workerEffs, hwb] at hlk
    rw [List.foldl_append, List.foldl_append, List.foldl_append,
        foldl_rec_writeFiles hwf] at hlk
    simpa [applyEffRec] using hlk
  · rw [hwb] at hfail; simp at hfail

theorem workerRun_lookup_ok {s : Separator} {env : WorkerEnv} {ip od : String}
    (hok : (workerBody s env ip od).2.2 = none)
    {st : SysState} {jid : Nat} {j : JobStatus} (hj : alookup st.jobs jid = some j) :
    alookup (workerRun s env jid ip od st).jobs jid =
      some { j with
              status := "completed"
              progress := some 1
              stems := some (workerBody s env ip od).2.1 } := by
  have hlk : alookup (workerRun s env jid ip od st).jobs jid
      = some (List.foldl applyEffRec j (workerEffs s env ip od)) := by
    have h0 := alookup_applyEffs_self st jid (workerEffs s env ip od)
    rw [hj] at h0
    simpa [workerRun] using h0
  rcases workerBody_cases s env ip od with
    ⟨m2, hwb⟩ | ⟨m2, hwb⟩ | ⟨m2, hwb⟩ | ⟨m2, effs, hwb, hwf⟩ | ⟨stems, hwb⟩
  · rw [hwb] at hok; simp at hok
  · rw [hwb] at hok; simp at hok
  · rw [hwb] at hok; simp at hok
  · rw [hwb] at hok; simp at hok
  · rw [hwb]
    simp only [workerEffs, hwb] at hlk
    rw [List.foldl_append, List.foldl_append, List.foldl_append,
        foldl_rec_writeFiles map_writeFile_mem] at hlk
    simpa [applyEffRec] using hlk

theorem modelNotLoaded_lookup {st : SysState} {jid : Nat} {j : JobStatus}
    (hj : alookup st.jobs jid = some j) :
    alookup (modelNotLoadedRun jid st).jobs jid =
      some { j with
              status := "failed"
              progress := some 0
              error := some "Model not loaded" } := by
  have hlk : alookup (modelNotLoadedRun jid st).jobs jid
      = some (List.foldl applyEffRec j
          [.setStatus "processing", .setProgress 0,
           .setStatus "failed", .setError "Model not loaded"]) := by
    have h0 := alookup_applyEffs_self st jid
      [.setStatus "processing", .setProgress 0, .setStatus "failed", .setError "Model not loaded"]
    rw [hj] at h0
    simpa [modelNotLoadedRun] using h0
  simpa [applyEffRec] using hlk

theorem modelNotLoaded_jobs_ne (jid : Nat) (st : SysState) {id2 : Nat} (h : id2 ≠ jid) :
    alookup (modelNotLoadedRun jid st).jobs id2 = alookup st.jobs id2 :=
  alookup_applyEffs_ne st jid _ h

/-! ### The sequence of progress writes in one worker run -/

theorem progressWrites_writeFiles {l : List Eff}
    (h : ∀ e ∈ l, ∃ p, e = Eff.writeFile p) : progressWrites l = [] := by
  induction l with
  | nil => rfl
  | cons e es ih =>
    obtain ⟨p, rfl⟩ := h e (by simp)
    simpa [progressWrites] using ih (fun e he => h e (by simp [he]))

theorem progressWrites_workerEffs (s : Separator) (env : WorkerEnv) (ip od : String) :
    List.Sorted (· ≤ ·) (progressWrites (workerEffs s env ip od)) ∧
    (progressWrites (workerEffs s env ip od)).head? = some 0 := by
  rcases workerBody_cases s env ip od with
    ⟨m2, hwb⟩ | ⟨m2, hwb⟩ | ⟨m2, hwb⟩ | ⟨m2, effs, hwb, hwf⟩ | ⟨stems, hwb⟩
  · have h : progressWrites (workerEffs s env ip od) = [0] := by
      simp [workerEffs, hwb, progressWrites]
    rw [h]
    exact ⟨by norm_num [List.sorted_cons], rfl⟩
  · have h : progressWrites (workerEffs s env ip od) = [0, 1/5] := by
      simp [workerEffs, hwb, progressWrites]
    rw [h]
    exact ⟨by norm_num [List.sorted_cons], rfl⟩
  · have h : progressWrites (workerEffs s env ip od) = [0, 1/5, 4/5] := by
      simp [workerEffs, hwb, progressWrites]
    rw [h]
    exact ⟨by norm_num [List.sorted_cons], rfl⟩
  · have hz := progressWrites_writeFiles hwf
    simp only [progressWrites] at hz
    have h : progressWrites (workerEffs s env ip od) = [0, 1/5, 4/5] := by
      simp [workerEffs, hwb, progressWrites, List.filterMap_append, hz]
    rw [h]
    exact ⟨by norm_num [List.sorted_cons], rfl⟩
  · have hz := progressWrites_writeFiles
      (@map_writeFile_mem (fun n => stemPathOf od n) s.sources)
    simp only [progressWrites] at hz
    have h : progressWrites (workerEffs s env ip od) = [0, 1/5, 4/5, 1] := by
      simp [workerEffs, hwb, progressWrites, List.filterMap_append, hz]
    rw [h]
    exact ⟨by norm_num [List.sorted_cons], rfl⟩

/-! ### The reachable-state invariant -/

theorem pending_ne_completed : ("pending" : String) ≠ "completed" := by decide

theorem pending_ne_failed : ("pending" : String) ≠ "failed" := by decide

theorem failed_ne_completed : ("failed" : String) ≠ "completed" := by decide

theorem completed_ne_failed : ("completed" : String) ≠ "failed" := by decide

theorem recordOk_fresh (id : Nat) : recordOk (freshJob id) := by
  refine ⟨⟨0, rfl, le_refl _, by norm_num, ?_⟩, ?_, ?_, ?_⟩
  · constructor
    · intro h1; norm_num at h1
    · intro h1; exact absurd h1 pending_ne_completed
  · intro h1; exact absurd h1 pending_ne_failed
  · intro h1; exact absurd h1 pending_ne_completed
  · intro _ _; exact ⟨rfl, rfl⟩

theorem recordOk_failedRec (j : JobStatus) (q : ℚ) (m : String)
    (hst : j.stems = none) (hq : q = 0 ∨ q = 1/5 ∨ q = 4/5) :
    recordOk { j with status := "failed", progress := some q, error := some m } := by
  refine ⟨⟨q, rfl, ?_, ?_, ?_⟩, ?_, ?_, ?_⟩
  · rcases hq with rfl | rfl | rfl <;> norm_num
  · rcases hq with rfl | rfl | rfl <;> norm_num
  · constructor
    · intro h1; rcases hq with rfl | rfl | rfl <;> norm_num at h1
    · intro h1; exact absurd h1 failed_ne_completed
  · intro _; exact ⟨rfl, hst⟩
  · intro h1; exact absurd h1 failed_ne_completed
  · intro h1 _; exact absurd rfl h1

theorem recordOk_completedRec (j : JobStatus) (ss : List (String × String))
    (herr : j.error = none) :
    recordOk { j with status := "completed", progress := some 1, stems := some ss } := by
  refine ⟨⟨1, rfl, by norm_num, le_refl _, by simp⟩, ?_, ?_, ?_⟩
  · intro h1; exact absurd h1 completed_ne_failed
  · intro _; exact ⟨rfl, herr⟩
  · intro _ h2; exact absurd rfl h2

theorem Obs_refl (st : SysState) : Obs st st :=
  ⟨le_refl _, fun _ j2 _ h => ⟨j2, h, fun p hp => ⟨p, hp, le_refl _⟩, fun _ => rfl⟩⟩

theorem Obs_trans {st1 st2 st3 : SysState} (h12 : Obs st1 st2) (h23 : Obs st2 st3) :
    Obs st1 st3 := by
  obtain ⟨hc12, hj12⟩ := h12
  obtain ⟨hc23, hj23⟩ := h23
  refine ⟨le_trans hc12 hc23, ?_⟩
  intro id j3 hid h3
  obtain ⟨j2, h2, hp23, hs23⟩ := hj23 id j3 (lt_of_lt_of_le hid hc12) h3
  obtain ⟨j1, h1, hp12, hs12⟩ := hj12 id j2 hid h2
  refine ⟨j1, h1, ?_, ?_⟩
  · intro p hp
    obtain ⟨p2, hp2, hle⟩ := hp12 p hp
    obtain ⟨p3, hp3, hle2⟩ := hp23 p2 hp2
    exact ⟨p3, hp3, le_trans hle hle2⟩
  · intro hcomp
    have h2eq := hs12 hcomp
    subst h2eq
    exact hs23 hcomp

theorem obs_of_jobs_eq {st st2 : SysState} (hj : st2.jobs = st.jobs)
    (hc : st.ctr ≤ st2.ctr) : Obs st st2 := by
  refine ⟨hc, ?_⟩
  intro id j2 _ h2
  rw [hj] at h2
  exact ⟨j2, h2, fun p hp => ⟨p, hp, le_refl _⟩, fun _ => rfl⟩

theorem inv_removeJob {st st2 : SysState} {id : Nat}
    (hjobs : st2.jobs = adelete st.jobs id) (hpend : st2.pending = st.pending)
    (hctr : st2.ctr = st.ctr) (hInv : Inv st) : Inv st2 ∧ Obs st st2 := by
  obtain ⟨idB, tB, tN, tR, rOk⟩ := hInv
  have hlook : ∀ id2 j2, alookup st2.jobs id2 = some j2 →
      id2 ≠ id ∧ alookup st.jobs id2 = some j2 := by
    intro id2 j2 h2
    rw [hjobs] at h2
    by_cases hcase : id2 = id
    · subst hcase; rw [alookup_adelete_self] at h2; cases h2
    · rw [alookup_adelete_ne _ hcase] at h2; exact ⟨hcase, h2⟩
  constructor
  · refine ⟨?_, ?_, ?_, ?_, ?_⟩
    · intro id2 j2 h2
      rw [hctr]
      exact idB id2 j2 (hlook id2 j2 h2).2
    · intro t ht
      rw [hpend] at ht
      rw [hctr]
      exact tB t ht
    · rw [hpend]; exact tN
    · intro t ht j2 h2
      rw [hpend] at ht
      exact tR t ht j2 (hlook t.jobId j2 h2).2
    · intro id2 j2 h2
      exact rOk id2 j2 (hlook id2 j2 h2).2
  · refine ⟨le_of_eq hctr.symm, ?_⟩
    intro id2 j2 _ h2
    exact ⟨j2, (hlook id2 j2 h2).2, fun p hp => ⟨p, hp, le_refl _⟩, fun _ => rfl⟩

/-- Each system step preserves the invariant and relates the two states by
`Obs`. -/
theorem inv_step (sep : Option Separator) (st : SysState) (e : Event) (hInv : Inv st) :
    Inv (step sep st e) ∧ Obs st (step sep st e) := by
  obtain ⟨idB, tB, tN, tR, rOk⟩ := hInv
  cases e with
  | submit env filename =>
    cases sep with
    | none =>
      have hst : step none st (.submit env filename) = st := by
        simp [step, separate_audio]
      rw [hst]
      exact ⟨⟨idB, tB, tN, tR, rOk⟩, Obs_refl st⟩
    | some s =>
      cases hw : env.write with
      | exn m =>
        have hjobs : (step (some s) st (.submit env filename)).jobs = st.jobs := by
          simp [step, separate_audio, hw]
        have hpend : (step (some s) st (.submit env filename)).pending = st.pending := by
          simp [step, separate_audio, hw]
        have hctr : (step (some s) st (.submit env filename)).ctr = st.ctr + 1 := by
          simp [step, separate_audio, hw]
        refine ⟨⟨?_, ?_, ?_, ?_, ?_⟩, ?_⟩
        · intro id j h
          rw [hjobs] at h
          rw [hctr]
          exact Nat.lt_succ_of_lt (idB id j h)
        · intro t ht
          rw [hpend] at ht
          rw [hctr]
          exact Nat.lt_succ_of_lt (tB t ht)
        · rw [hpend]; exact tN
        · intro t ht j h
          rw [hpend] at ht
          rw [hjobs] at h
          exact tR t ht j h
        · intro id j h
          rw [hjobs] at h
          exact rOk id j h
        · exact obs_of_jobs_eq hjobs (by rw [hctr]; exact Nat.le_succ _)
      | ok u =>
        have hjobs : (step (some s) st (.submit env filename)).jobs
            = st.jobs ++ [(st.ctr, ⟨st.ctr, "pending", some 0, none, none⟩)] := by
          simp [step, separate_audio, hw]
        have hpend : (step (some s) st (.submit env filename)).pending
            = st.pending ++ [⟨st.ctr, inputPathOf st.ctr filename, outputDirOf st.ctr⟩] := by
          simp [step, separate_audio, hw]
        have hctr : (step (some s) st (.submit env filename)).ctr = st.ctr + 1 := by
          simp [step, separate_audio, hw]
        have hnone : alookup st.jobs st.ctr = none := by
          cases hl : alookup st.jobs st.ctr with
          | none => rfl
          | some j => exact absurd (idB _ _ hl) (lt_irrefl _)
        have hfreshlook : alookup (step (some s) st (.submit env filename)).jobs st.ctr
            = some (freshJob st.ctr) := by
          rw [hjobs, alookup_append_none hnone, alookup_single, if_pos rfl]
          rfl
        have hsplit : ∀ id j, alookup (step (some s) st (.submit env filename)).jobs id = some j →
            alookup st.jobs id = some j ∨ (id = st.ctr ∧ j = freshJob st.ctr) := by
          intro id j h
          rw [hjobs] at h
          cases hl : alookup st.jobs id with
          | some j0 =>
            rw [alookup_append_some hl] at h
            obtain rfl := Option.some.inj h
            exact Or.inl rfl
          | none =>
            rw [alookup_append_none hl, alookup_single] at h
            by_cases hc : st.ctr = id
            · rw [if_pos hc] at h
              obtain rfl := Option.some.inj h
              exact Or.inr ⟨hc.symm, rfl⟩
            · rw [if_neg hc] at h
              cases h
        refine ⟨⟨?_, ?_, ?_, ?_, ?_⟩, ?_⟩
        · intro id j h
          rw [hctr]
          rcases hsplit id j h with hl | ⟨rfl, _⟩
          · exact Nat.lt_succ_of_lt (idB id j hl)
          · exact Nat.lt_succ_self _
        · intro t ht
          rw [hpend] at ht
          rw [hctr]
          rcases List.mem_append.mp ht with hm | hm
          · exact Nat.lt_succ_of_lt (tB t hm)
          · rcases List.mem_singleton.mp hm with rfl
            exact Nat.lt_succ_self _
        · rw [hpend, List.map_append]
          refine List.Nodup.append tN (by simp) ?_
          intro a ha hb
          simp only [List.map_cons, List.map_nil, List.mem_singleton] at hb
          obtain ⟨t, ht, rfl⟩ := List.mem_map.mp ha
          have := tB t ht
          rw [hb] at this
          exact absurd this (lt_irrefl _)
        · intro t ht j h
          rw [hpend] at ht
          rcases List.mem_append.mp ht with hm | hm
          · rcases hsplit t.jobId j h with hl | ⟨heq, _⟩
            · exact tR t hm j hl
            · exact absurd (heq ▸ tB t hm) (lt_irrefl _)
          · rcases List.mem_singleton.mp hm with rfl
            rw [hfreshlook] at h
            obtain rfl := Option.some.inj h
            rfl
        · intro id j h
          rcases hsplit id j h with hl | ⟨rfl, rfl⟩
          · exact rOk id j hl
          · exact recordOk_fresh _
        · refine ⟨by rw [hctr]; exact Nat.le_succ _, ?_⟩
          intro id j2 hid h2
          rcases hsplit id j2 h2 with hl | ⟨rfl, _⟩
          · exact ⟨j2, hl, fun p hp => ⟨p, hp, le_refl _⟩, fun _ => rfl⟩
          · exact absurd hid (lt_irrefl _)
  | runWorker env =>
    cases hp : st.pending with
    | nil =>
      have hst : step sep st (.runWorker env) = st := by
        simp [step, hp]
      rw [hst]
      exact ⟨⟨idB, tB, tN, tR, rOk⟩, Obs_refl st⟩
    | cons t rest =>
      have htmem : t ∈ st.pending := by rw [hp]; exact List.mem_cons_self _ _
      have hrestmem : ∀ t2 ∈ rest, t2 ∈ st.pending := by
        intro t2 h2
        rw [hp]
        exact List.mem_cons_of_mem _ h2
      have hrestN : (rest.map WorkerTask.jobId).Nodup := by
        rw [hp] at tN
        simp only [List.map_cons] at tN
        exact tN.of_cons
      have hrestne : ∀ t2 ∈ rest, t2.jobId ≠ t.jobId := by
        intro t2 h2 hc
        rw [hp] at tN
        simp only [List.map_cons, List.nodup_cons] at tN
        exact tN.1 (hc ▸ List.mem_map_of_mem WorkerTask.jobId h2)
      cases hl : alookup st.jobs t.jobId with
      | none =>
        have hst : step sep st (.runWorker env) = { st with pending := rest } := by
          cases sep <;> simp [step, hp, processSeparation, hl]
        rw [hst]
        refine ⟨⟨?_, ?_, ?_, ?_, ?_⟩, ?_⟩
        · intro id j h; exact idB id j h
        · intro t2 ht2; exact tB t2 (hrestmem t2 ht2)
        · exact hrestN
        · intro t2 ht2 j h; exact tR t2 (hrestmem t2 ht2) j h
        · intro id j h; exact rOk id j h
        · exact obs_of_jobs_eq rfl (le_refl _)
      | some j =>
        have hjf : j = freshJob t.jobId := tR t htmem j hl
        subst hjf
        cases sep with
        | none =>
          have hst : step none st (.runWorker env)
              = modelNotLoadedRun t.jobId { st with pending := rest } := by
            simp [step, hp, processSeparation, hl]
          have hrec : alookup (step none st (.runWorker env)).jobs t.jobId
              = some { freshJob t.jobId with
                        status := "failed"
                        progress := some 0
                        error := some "Model not loaded" } := by
            rw [hst]
            exact modelNotLoaded_lookup hl
          have hne : ∀ id2, id2 ≠ t.jobId →
              alookup (step none st (.runWorker env)).jobs id2 = alookup st.jobs id2 := by
            intro id2 h2
            rw [hst]
            exact modelNotLoaded_jobs_ne _ _ h2
          have hpend2 : (step none st (.runWorker env)).pending = rest := by
            rw [hst]; rfl
          have hctr2 : (step none st (.runWorker env)).ctr = st.ctr := by
            rw [hst]; rfl
          have hsplit : ∀ id j2, alookup (step none st (.runWorker env)).jobs id = some j2 →
              (id = t.jobId ∧ j2 = { freshJob t.jobId with
                        status := "failed"
                        progress := some 0
                        error := some "Model not loaded" }) ∨
              (id ≠ t.jobId ∧ alookup st.jobs id = some j2) := by
            intro id j2 h2
            by_cases hc : id = t.jobId
            · subst hc
              rw [hrec] at h2
              obtain rfl := Option.some.inj h2
              exact Or.inl ⟨rfl, rfl⟩
            · rw [hne id hc] at h2
              exact Or.inr ⟨hc, h2⟩
          refine ⟨⟨?_, ?_, ?_, ?_, ?_⟩, ?_⟩
          · intro id j2 h2
            rw [hctr2]
            rcases hsplit id j2 h2 with ⟨rfl, _⟩ | ⟨_, h3⟩
            · exact idB _ _ hl
            · exact idB _ _ h3
          · intro t2 ht2
            rw [hpend2] at ht2
            rw [hctr2]
            exact tB t2 (hrestmem t2 ht2)
          · rw [hpend2]; exact hrestN
          · intro t2 ht2 j2 h2
            rw [hpend2] at ht2
            rw [hne t2.jobId (hrestne t2 ht2)] at h2
            exact tR t2 (hrestmem t2 ht2) j2 h2
          · intro id j2 h2
            rcases hsplit id j2 h2 with ⟨rfl, rfl⟩ | ⟨_, h3⟩
            · exact recordOk_failedRec _ 0 _ rfl (Or.inl rfl)
            · exact rOk id j2 h3
          · refine ⟨le_of_eq hctr2.symm, ?_⟩
            intro id j2 _ h2
            rcases hsplit id j2 h2 with ⟨rfl, rfl⟩ | ⟨_, h3⟩
            · refine ⟨freshJob t.jobId, hl, ?_, ?_⟩
              · intro p hp
                have hp0 : p = 0 := by
                  simpa [freshJob] using hp.symm
                subst hp0
                exact ⟨0, rfl, le_refl _⟩
              · intro hcomp
                exact absurd hcomp pending_ne_completed
            · exact ⟨j2, h3, fun p hp => ⟨p, hp, le_refl _⟩, fun _ => rfl⟩
        | some s =>
          have hst : step (some s) st (.runWorker env)
              = workerRun s env t.jobId t.inputPath t.outputDir { st with pending := rest } := by
            simp [step, hp, processSeparation, hl]
          have hne : ∀ id2, id2 ≠ t.jobId →
              alookup (step (some s) st (.runWorker env)).jobs id2 = alookup st.jobs id2 := by
            intro id2 h2
            rw [hst]
            exact workerRun_jobs_ne _ _ _ _ _ _ h2
          have hpend2 : (step (some s) st (.runWorker env)).pending = rest := by
            rw [hst]; rfl
          have hctr2 : (step (some s) st (.runWorker env)).ctr = st.ctr := by
            rw [hst]; rfl
          cases hwb : (workerBody s env t.inputPath t.outputDir).2.2 with
          | some m =>
            have hl1 : alookup ({ st with pending := rest } : SysState).jobs t.jobId
                = some (freshJob t.jobId) := hl
            obtain ⟨q, hq, hrec0⟩ := workerRun_lookup_fail hwb hl1
            have hrec : alookup (step (some s) st (.runWorker env)).jobs t.jobId
                = some { freshJob t.jobId with
                          status := "failed"
                          progress := some q
                          error := some m } := by
              rw [hst]; exact hrec0
            have hsplit : ∀ id j2,
                alookup (step (some s) st (.runWorker env)).jobs id = some j2 →
                (id = t.jobId ∧ j2 = { freshJob t.jobId with
                          status := "failed"
                          progress := some q
                          error := some m }) ∨
                (id ≠ t.jobId ∧ alookup st.jobs id = some j2) := by
              intro id j2 h2
              by_cases hc : id = t.jobId
              · subst hc
                rw [hrec] at h2
                obtain rfl := Option.some.inj h2
                exact Or.inl ⟨rfl, rfl⟩
              · rw [hne id hc] at h2
                exact Or.inr ⟨hc, h2⟩
            refine ⟨⟨?_, ?_, ?_, ?_, ?_⟩, ?_⟩
            · intro id j2 h2
              rw [hctr2]
              rcases hsplit id j2 h2 with ⟨rfl, _⟩ | ⟨_, h3⟩
              · exact idB _ _ hl
              · exact idB _ _ h3
            · intro t2 ht2
              rw [hpend2] at ht2
              rw [hctr2]
              exact tB t2 (hrestmem t2 ht2)
            · rw [hpend2]; exact hrestN
            · intro t2 ht2 j2 h2
              rw [hpend2] at ht2
              rw [hne t2.jobId (hrestne t2 ht2)] at h2
              exact tR t2 (hrestmem t2 ht2) j2 h2
            · intro id j2 h2
              rcases hsplit id j2 h2 with ⟨rfl, rfl⟩ | ⟨_, h3⟩
              · exact recordOk_failedRec _ q _ rfl hq
              · exact rOk id j2 h3
            · refine ⟨le_of_eq hctr2.symm, ?_⟩
              intro id j2 _ h2
              rcases hsplit id j2 h2 with ⟨rfl, rfl⟩ | ⟨_, h3⟩
              · refine ⟨freshJob t.jobId, hl, ?_, ?_⟩
                · intro p hp
                  have hp0 : p = 0 := by
                    simpa [freshJob] using hp.symm
                  subst hp0
                  refine ⟨q, rfl, ?_⟩
                  rcases hq with rfl | rfl | rfl <;> norm_num
                · intro hcomp
                  exact absurd hcomp pending_ne_completed
              · exact ⟨j2, h3, fun p hp => ⟨p, hp, le_refl _⟩, fun _ => rfl⟩
          | none =>
            have hrec : alookup (step (some s) st (.runWorker env)).jobs t.jobId
                = some { freshJob t.jobId with
                          status := "completed"
                          progress := some 1
                          stems := some (workerBody s env t.inputPath t.outputDir).2.1 } := by
              rw [hst]
              exact workerRun_lookup_ok hwb hl
            have hsplit : ∀ id j2,
                alookup (step (some s) st (.runWorker env)).jobs id = some j2 →
                (id = t.jobId ∧ j2 = { freshJob t.jobId with
                          status := "completed"
                          progress := some 1
                          stems := some (workerBody s env t.inputPath t.outputDir).2.1 }) ∨
                (id ≠ t.jobId ∧ alookup st.jobs id = some j2) := by
              intro id j2 h2
              by_cases hc : id = t.jobId
              · subst hc
                rw [hrec] at h2
                obtain rfl := Option.some.inj h2
                exact Or.inl ⟨rfl, rfl⟩
              · rw [hne id hc] at h2
                exact Or.inr ⟨hc, h2⟩
            refine ⟨⟨?_, ?_, ?_, ?_, ?_⟩, ?_⟩
            · intro id j2 h2
              rw [hctr2]
              rcases hsplit id j2 h2 with ⟨rfl, _⟩ | ⟨_, h3⟩
              · exact idB _ _ hl
              · exact idB _ _ h3
            · intro t2 ht2
              rw [hpend2] at ht2
              rw [hctr2]
              exact tB t2 (hrestmem t2 ht2)
            · rw [hpend2]; exact hrestN
            · intro t2 ht2 j2 h2
              rw [hpend2] at ht2
              rw [hne t2.jobId (hrestne t2 ht2)] at h2
              exact tR t2 (hrestmem t2 ht2) j2 h2
            · intro id j2 h2
              rcases hsplit id j2 h2 with ⟨rfl, rfl⟩ | ⟨_, h3⟩
              · exact recordOk_completedRec _ _ rfl
              · exact rOk id j2 h3
            · refine ⟨le_of_eq hctr2.symm, ?_⟩
              intro id j2 _ h2
              rcases hsplit id j2 h2 with ⟨rfl, rfl⟩ | ⟨_, h3⟩
              · refine ⟨freshJob t.jobId, hl, ?_, ?_⟩
                · intro p hp
                  have hp0 : p = 0 := by
                    simpa [freshJob] using hp.symm
                  subst hp0
                  exact ⟨1, rfl, by norm_num⟩
                · intro hcomp
                  exact absurd hcomp pending_ne_completed
              · exact ⟨j2, h3, fun p hp => ⟨p, hp, le_refl _⟩, fun _ => rfl⟩
  | deleteJob env id =>
    cases hl : alookup st.jobs id with
    | none =>
      have hst : step sep st (.deleteJob env id) = st := by
        simp [step, delete_job, hl]
      rw [hst]
      exact ⟨⟨idB, tB, tN, tR, rOk⟩, Obs_refl st⟩
    | some j =>
      by_cases hd : outputDirOf id ∈ st.fs.dirs
      · cases hrm : env.rmtree with
        | exn m =>
          have hst : step sep st (.deleteJob env id) = st := by
            simp [step, delete_job, hl, hd, hrm]
          rw [hst]
          exact ⟨⟨idB, tB, tN, tR, rOk⟩, Obs_refl st⟩
        | ok u =>
          have hjobs : (step sep st (.deleteJob env id)).jobs = adelete st.jobs id := by
            simp [step, delete_job, hl, hd, hrm, removeJob]
          have hpend : (step sep st (.deleteJob env id)).pending = st.pending := by
            simp [step, delete_job, hl, hd, hrm, removeJob]
          have hctr : (step sep st (.deleteJob env id)).ctr = st.ctr := by
            simp [step, delete_job, hl, hd, hrm, removeJob]
          exact inv_removeJob hjobs hpend hctr ⟨idB, tB, tN, tR, rOk⟩
      · have hjobs : (step sep st (.deleteJob env id)).jobs = adelete st.jobs id := by
          simp [step, delete_job, hl, hd, removeJob]
        have hpend : (step sep st (.deleteJob env id)).pending = st.pending := by
          simp [step, delete_job, hl, hd, removeJob]
        have hctr : (step sep st (.deleteJob env id)).ctr = st.ctr := by
          simp [step, delete_job, hl, hd, removeJob]
        exact inv_removeJob hjobs hpend hctr ⟨idB, tB, tN, tR, rOk⟩

/-- The startup state satisfies the invariant. -/
theorem inv_init (fs : FS) : Inv (initSt fs) := by
  refine ⟨?_, ?_, ?_, ?_, ?_⟩
  · intro id j h; cases h
  · intro t ht; cases ht
  · simp [initSt]
  · intro t ht; cases ht
  · intro id j h; cases h

/-- The invariant and `Obs` extend along whole traces. -/
theorem inv_run (sep : Option Separator) (st : SysState) (es : List Event) (hInv : Inv st) :
    Inv (run sep st es) ∧ Obs st (run sep st es) := by
  induction es generalizing st with
  | nil => exact ⟨hInv, Obs_refl st⟩
  | cons e es ih =>
    obtain ⟨h1, h2⟩ := inv_step sep st e hInv
    obtain ⟨h3, h4⟩ := ih (step sep st e) h1
    exact ⟨h3, Obs_trans h2 h4⟩

/-! ### The claims -/

/-- C1: for every job (a job record exists), any exception raised inside
the worker pipeline from audio loading onward — modelled as the pipeline
`workerBody` raising with message `m` — is caught by the single failure
boundary: the job's status is set to "failed" with the exception's message
recorded as the job's `error`, nothing propagates out of the worker, and
no other job's record changes. -/
theorem claim1_worker_failure_boundary (s : Separator) (env : WorkerEnv) (jid : Nat)
    (ip od : String) (st : SysState) (j : JobStatus) (m : String)
    (hj : lookupJob st jid = some j)
    (hfail : (workerBody s env ip od).2.2 = some m) :
    (processSeparation (some s) env jid ip od st).2 = false ∧
    (∃ q : ℚ, lookupJob (processSeparation (some s) env jid ip od st).1 jid =
        some { j with status := "failed", progress := some q, error := some m }) ∧
    (∀ id2, id2 ≠ jid →
      lookupJob (processSeparation (some s) env jid ip od st).1 id2 = lookupJob st id2) := by
  have hj2 : alookup st.jobs jid = some j := hj
  have hps : processSeparation (some s) env jid ip od st
      = (workerRun s env jid ip od st, false) := by
    simp [processSeparation, hj2]
  rw [hps]
  refine ⟨rfl, ?_, ?_⟩
  · obtain ⟨q, _, hrec⟩ := workerRun_lookup_fail hfail hj2
    exact ⟨q, hrec⟩
  · intro id2 hne
    exact workerRun_jobs_ne _ _ _ _ _ _ hne

theorem claim1_witness :
    lookupJob st1 0 = some (freshJob 0) ∧
    (workerBody sepC envLoadFailW "input/0_a.wav" "output/0").2.2 = some "decode error" ∧
    ((processSeparation (some sepC) envLoadFailW 0 "input/0_a.wav" "output/0" st1).2 = false ∧
     (∃ q : ℚ,
        lookupJob (processSeparation (some sepC) envLoadFailW 0 "input/0_a.wav" "output/0" st1).1 0
          = some { freshJob 0 with
                    status := "failed"
                    progress := some q
                    error := some "decode error" }) ∧
     (∀ id2, id2 ≠ 0 →
        lookupJob (processSeparation (some sepC) envLoadFailW 0 "input/0_a.wav" "output/0" st1).1 id2
          = lookupJob st1 id2)) :=
  ⟨rfl, rfl,
   claim1_worker_failure_boundary sepC envLoadFailW 0 "input/0_a.wav" "output/0" st1
     (freshJob 0) "decode error" rfl rfl⟩

/-- C2: at every observable point of every trace, the presence of `error`
and `stems` on a job record is correlated with its `status`: failed
records carry an error and no stems, completed records carry stems and no
error, and records in any other status carry neither. -/
theorem claim2_error_stems_status (sep : Option Separator) (fs : FS) (es : List Event)
    (id : Nat) (j : JobStatus)
    (h : lookupJob (run sep (initSt fs) es) id = some j) :
    (j.status = "failed" → j.error.isSome ∧ j.stems = none) ∧
    (j.status = "completed" → j.stems.isSome ∧ j.error = none) ∧
    (j.status ≠ "failed" → j.status ≠ "completed" → j.error = none ∧ j.stems = none) := by
  have hInv := (inv_run sep (initSt fs) es (inv_init fs)).1
  have hr := hInv.recOk id j h
  exact ⟨hr.2.1, hr.2.2.1, hr.2.2.2⟩

theorem claim2_witness :
    lookupJob (run (some sepC) (initSt fsE) [.submit subOk "a.wav"]) 0 = some (freshJob 0) ∧
    (((freshJob 0).status = "failed" → (freshJob 0).error.isSome ∧ (freshJob 0).stems = none) ∧
     ((freshJob 0).status = "completed" → (freshJob 0).stems.isSome ∧ (freshJob 0).error = none) ∧
     ((freshJob 0).status ≠ "failed" → (freshJob 0).status ≠ "completed" →
        (freshJob 0).error = none ∧ (freshJob 0).stems = none)) :=
  ⟨rfl, claim2_error_stems_status (some sepC) fsE [.submit subOk "a.wav"] 0 (freshJob 0) rfl⟩

/-- C4: errors before a job exists abort Submit synchronously and leave
the Job Store untouched: with no model loaded, Submit returns 503 before
any file I/O (the whole state, filesystem included, is unchanged); when
persisting the upload raises, Submit returns 500 and registers no job and
dispatches no worker. -/
theorem claim4_submit_errors (env : SubmitEnv) (fn : String) (st : SysState) :
    (separate_audio none env fn st = (st, .err 503 "Model not loaded")) ∧
    (∀ (s : Separator) (m : String), env.write = .exn m →
       (separate_audio (some s) env fn st).1.jobs = st.jobs ∧
       (separate_audio (some s) env fn st).1.pending = st.pending ∧
       (separate_audio (some s) env fn st).2 = .err 500 ("Failed to save file: " ++ m)) := by
  refine ⟨rfl, ?_⟩
  intro s m hw
  refine ⟨?_, ?_, ?_⟩ <;> simp [separate_audio, hw]

theorem claim4_witness :
    subFail.write = StepResult.exn "disk full" ∧
    separate_audio none subFail "a.wav" (initSt fsE) = (initSt fsE, .err 503 "Model not loaded") ∧
    ((separate_audio (some sepC) subFail "a.wav" (initSt fsE)).1.jobs = (initSt fsE).jobs ∧
     (separate_audio (some sepC) subFail "a.wav" (initSt fsE)).1.pending = (initSt fsE).pending ∧
     (separate_audio (some sepC) subFail "a.wav" (initSt fsE)).2
       = .err 500 ("Failed to save file: " ++ "disk full")) :=
  ⟨rfl, (claim4_submit_errors subFail "a.wav" (initSt fsE)).1,
   (claim4_submit_errors subFail "a.wav" (initSt fsE)).2 sepC "disk full" rfl⟩

/-- C6: DownloadStem fails 404 on an unknown job; fails 400 ("not ready")
whenever the job is not completed, never returning data; fails 404 when
the stem name is not among the completed job's recorded stems or the
recorded file is missing from storage; and on success returns a handle to
the recorded artifact with declared content type "audio/wav". -/
theorem claim6_download_contract (st : SysState) (id : Nat) (name : String) :
    (lookupJob st id = none → download_stem st id name = .error (404, "Job not found")) ∧
    (∀ j, lookupJob st id = some j → j.status ≠ "completed" →
       download_stem st id name = .error (400, "Job not completed: " ++ j.status)) ∧
    (∀ j, lookupJob st id = some j → j.status = "completed" → j.stems = none →
       download_stem st id name = .error (404, "Stem not found")) ∧
    (∀ j ms, lookupJob st id = some j → j.status = "completed" → j.stems = some ms →
       alookupS ms name = none →
       download_stem st id name = .error (404, "Stem not found")) ∧
    (∀ j ms p, lookupJob st id = some j → j.status = "completed" → j.stems = some ms →
       alookupS ms name = some p → p ∉ st.fs.files →
       download_stem st id name = .error (404, "Stem file not found")) ∧
    (∀ j ms p, lookupJob st id = some j → j.status = "completed" → j.stems = some ms →
       alookupS ms name = some p → p ∈ st.fs.files →
       download_stem st id name = Except.ok ⟨p, "audio/wav", name ++ ".wav"⟩) := by
  refine ⟨?_, ?_, ?_, ?_, ?_, ?_⟩
  · intro h
    simp [download_stem, h]
  · intro j hl hne
    simp [download_stem, hl, hne]
  · intro j hl hc hstems
    simp [download_stem, hl, hc, hstems]
  · intro j ms hl hc hstems hlk
    simp [download_stem, hl, hc, hstems, hlk]
  · intro j ms p hl hc hstems hlk hmem
    simp [download_stem, hl, hc, hstems, hlk, hmem]
  · intro j ms p hl hc hstems hlk hmem
    simp [download_stem, hl, hc, hstems, hlk, hmem]

theorem claim6_witness :
    lookupJob st2 0 = some jC ∧ jC.status = "completed" ∧ jC.stems = some stemsC ∧
    alookupS stemsC "vocals" = some "output/0/vocals.wav" ∧
    "output/0/vocals.wav" ∈ st2.fs.files ∧
    download_stem st2 0 "vocals"
      = Except.ok ⟨"output/0/vocals.wav", "audio/wav", "vocals" ++ ".wav"⟩ :=
  ⟨rfl, rfl, rfl, rfl, List.mem_cons_self _ _,
   (claim6_download_contract st2 0 "vocals").2.2.2.2.2 jC stemsC "output/0/vocals.wav"
     rfl rfl rfl rfl (List.mem_cons_self _ _)⟩

/-- C7: the normalization step resamples exactly when the source sample
rate differs from the model's, and coerces the channel count to two: a
mono input is duplicated into two identical channels, an input with more
than two channels is truncated to its first two, and a two-channel input
passes through unchanged. -/
theorem claim7_normalization (s : Separator) (env : WorkerEnv) :
    (∀ (w : Waveform) (sr : Nat), sr ≠ s.samplerate →
       resampleIfNeeded s env w sr = env.resample sr s.samplerate w) ∧
    (∀ (w : Waveform) (sr : Nat), sr = s.samplerate →
       resampleIfNeeded s env w sr = .ok w) ∧
    (∀ c : List ℚ, ensureStereo [c] = [c, c]) ∧
    (∀ w : Waveform, 2 < w.length →
       ensureStereo w = w.take 2 ∧ (ensureStereo w).length = 2) ∧
    (∀ w : Waveform, w.length = 2 → ensureStereo w = w) := by
  refine ⟨?_, ?_, ?_, ?_, ?_⟩
  · intro w sr h
    simp [resampleIfNeeded, h]
  · intro w sr h
    simp [resampleIfNeeded, h]
  · intro c
    simp [ensureStereo]
  · intro w h
    have h1 : ¬ w.length = 1 := by omega
    refine ⟨by simp [ensureStereo, h1, h], ?_⟩
    simp [ensureStereo, h1, h]
    omega
  · intro w h
    have h1 : ¬ w.length = 1 := by omega
    have h2 : ¬ 2 < w.length := by omega
    simp [ensureStereo, h1, h2]

theorem claim7_witness :
    ((48000 : Nat) ≠ sepC.samplerate ∧
       resampleIfNeeded sepC envOkW wavC 48000 = envOkW.resample 48000 sepC.samplerate wavC) ∧
    ((44100 : Nat) = sepC.samplerate ∧ resampleIfNeeded sepC envOkW wavC 44100 = .ok wavC) ∧
    ensureStereo [[5, 6]] = [[5, 6], [5, 6]] ∧
    (2 < ([[1], [2], [3]] : Waveform).length ∧
       ensureStereo [[1], [2], [3]] = ([[1], [2], [3]] : Waveform).take 2 ∧
       (ensureStereo [[1], [2], [3]]).length = 2) ∧
    (wavC.length = 2 ∧ ensureStereo wavC = wavC) :=
  ⟨⟨by decide, (claim7_normalization sepC envOkW).1 wavC 48000 (by decide)⟩,
   ⟨rfl, (claim7_normalization sepC envOkW).2.1 wavC 44100 rfl⟩,
   (claim7_normalization sepC envOkW).2.2.1 [5, 6],
   ⟨by decide, (claim7_normalization sepC envOkW).2.2.2.1 [[1], [2], [3]] (by decide)⟩,
   ⟨rfl, (claim7_normalization sepC envOkW).2.2.2.2 wavC rfl⟩⟩

/-- C3: a job's progress starts at 0.0 at creation, each successive write
inside a worker run is ≥ the previous value, the value observed at any two
points of a trace never decreases, and progress equals 1.0 exactly when
the status is "completed". -/
theorem claim3_progress_monotone (sep : Option Separator) (fs : FS)
    (es1 es2 : List Event) (id : Nat) (j1 j2 : JobStatus)
    (h1 : lookupJob (run sep (initSt fs) es1) id = some j1)
    (h2 : lookupJob (run sep (run sep (initSt fs) es1) es2) id = some j2) :
    (∃ p1 p2 : ℚ, j1.progress = some p1 ∧ j2.progress = some p2 ∧ p1 ≤ p2) ∧
    (∀ p, j2.progress = some p → (p = 1 ↔ j2.status = "completed")) ∧
    (∀ (s : Separator) (env : SubmitEnv) (fn : String) (st st2 : SysState) (jid : Nat),
       separate_audio (some s) env fn st = (st2, .ok jid "pending") →
       st2.jobs = st.jobs ++ [(jid, freshJob jid)] ∧ (freshJob jid).progress = some 0) ∧
    (∀ (s : Separator) (env : WorkerEnv) (ip od : String),
       List.Sorted (· ≤ ·) (progressWrites (workerEffs s env ip od)) ∧
       (progressWrites (workerEffs s env ip od)).head? = some 0) := by
  have invA := (inv_run sep (initSt fs) es1 (inv_init fs)).1
  have h1a : alookup (run sep (initSt fs) es1).jobs id = some j1 := h1
  have h2a : alookup (run sep (run sep (initSt fs) es1) es2).jobs id = some j2 := h2
  have hid : id < (run sep (initSt fs) es1).ctr := invA.idBound id j1 h1a
  have hrun2 := inv_run sep (run sep (initSt fs) es1) es2 invA
  obtain ⟨j1b, h1b, hmono, _⟩ := hrun2.2.2 id j2 hid h2a
  have hj1 : j1b = j1 := Option.some.inj (h1b.symm.trans h1a)
  subst hj1
  refine ⟨?_, ?_, ?_, ?_⟩
  · obtain ⟨p1, hp1, _⟩ := (invA.recOk id j1b h1a).1
    obtain ⟨p2, hp2, hle⟩ := hmono p1 hp1
    exact ⟨p1, p2, hp1, hp2, hle⟩
  · intro p hp
    obtain ⟨p0, hp0, _, _, hiff⟩ := (hrun2.1.recOk id j2 h2a).1
    obtain rfl := Option.some.inj (hp.symm.trans hp0)
    exact hiff
  · intro s env fn st st2 jid hsub
    cases hw : env.write with
    | exn m => simp [separate_audio, hw] at hsub
    | ok u =>
      have heq : separate_audio (some s) env fn st
          = ({ st with
                ctr := st.ctr + 1
                fs := { st.fs with files := insertStr (inputPathOf st.ctr fn) st.fs.files }
                jobs := st.jobs ++ [(st.ctr, ⟨st.ctr, "pending", some 0, none, none⟩)]
                pending := st.pending ++ [⟨st.ctr, inputPathOf st.ctr fn, outputDirOf st.ctr⟩] },
             .ok st.ctr "pending") := by
        simp [separate_audio, hw]
      rw [heq] at hsub
      have hst2 := congrArg Prod.fst hsub
      have hres := congrArg Prod.snd hsub
      simp only [Prod.fst, Prod.snd] at hst2 hres
      injection hres with hjid hpd
      subst hjid
      refine ⟨?_, rfl⟩
      rw [← hst2]
      rfl
  · intro s env ip od
    exact progressWrites_workerEffs s env ip od

theorem claim3_witness :
    lookupJob (run (some sepC) (initSt fsE) [.submit subOk "a.wav"]) 0 = some (freshJob 0) ∧
    lookupJob (run (some sepC) (run (some sepC) (initSt fsE) [.submit subOk "a.wav"])
        [.runWorker envOkW]) 0 = some jC ∧
    (∃ p1 p2 : ℚ, (freshJob 0).progress = some p1 ∧ jC.progress = some p2 ∧ p1 ≤ p2) ∧
    ((1 : ℚ) = 1 ↔ jC.status = "completed") ∧
    List.Sorted (· ≤ ·) (progressWrites (workerEffs sepC envOkW "input/0_a.wav" "output/0")) :=
  have hmain := claim3_progress_monotone (some sepC) fsE [.submit subOk "a.wav"]
    [.runWorker envOkW] 0 (freshJob 0) jC rfl rfl
  ⟨rfl, rfl, hmain.1, hmain.2.1 1 rfl,
   (hmain.2.2.2 sepC envOkW "input/0_a.wav" "output/0").1⟩

/-- C5 counterexample: in a reachable state with a completed job whose
output directory exists, a failing `shutil.rmtree` makes DeleteJob return
an error (the exception escapes the handler) and the Job Store entry
survives, so a failure to remove the tree is NOT treated as best-effort
and entry removal does not follow. -/
theorem claim5_counterexample :
    lookupJob st2 0 = some jC ∧
    outputDirOf 0 ∈ st2.fs.dirs ∧
    (delete_job ⟨.exn "Permission denied"⟩ st2 0).2 = .error (500, "Permission denied") ∧
    lookupJob (delete_job ⟨.exn "Permission denied"⟩ st2 0).1 0 = some jC :=
  ⟨rfl, List.mem_singleton.mpr rfl, rfl, rfl⟩

/-- C5 (amended): DeleteJob fails NotFound on an unknown id; otherwise it
attempts removal of the output directory only if the directory exists
(absence is not an error) and then removes the store entry, after which
GetStatus and a repeated DeleteJob fail NotFound; but if the removal
itself raises, the error propagates to the caller and the store entry
remains in place. -/
theorem claim5_delete_semantics (env env2 : DeleteEnv) (st : SysState) (id : Nat) :
    (lookupJob st id = none → delete_job env st id = (st, .error (404, "Job not found"))) ∧
    (∀ j, lookupJob st id = some j → outputDirOf id ∉ st.fs.dirs →
       delete_job env st id = (removeJob st id, Except.ok ("deleted", id)) ∧
       get_job_status (delete_job env st id).1 id = .error (404, "Job not found") ∧
       (delete_job env2 (delete_job env st id).1 id).2 = .error (404, "Job not found")) ∧
    (∀ j, lookupJob st id = some j → outputDirOf id ∈ st.fs.dirs → env.rmtree = .ok () →
       delete_job env st id
         = (removeJob { st with fs := removeTree st.fs (outputDirOf id) } id,
            Except.ok ("deleted", id)) ∧
       get_job_status (delete_job env st id).1 id = .error (404, "Job not found") ∧
       (delete_job env2 (delete_job env st id).1 id).2 = .error (404, "Job not found")) ∧
    (∀ j m, lookupJob st id = some j → outputDirOf id ∈ st.fs.dirs → env.rmtree = .exn m →
       delete_job env st id = (st, .error (500, m)) ∧
       lookupJob (delete_job env st id).1 id = some j) := by
  refine ⟨?_, ?_, ?_, ?_⟩
  · intro h
    have h2 : alookup st.jobs id = none := h
    simp [delete_job, h2]
  · intro j hl hd
    have hl2 : alookup st.jobs id = some j := hl
    have hdel : delete_job env st id = (removeJob st id, Except.ok ("deleted", id)) := by
      simp [delete_job, hl2, hd]
    refine ⟨hdel, ?_, ?_⟩
    · rw [hdel]
      simp [get_job_status, lookupJob, removeJob, alookup_adelete_self]
    · rw [hdel]
      simp [delete_job, removeJob, alookup_adelete_self]
  · intro j hl hd hrm
    have hl2 : alookup st.jobs id = some j := hl
    have hdel : delete_job env st id
        = (removeJob { st with fs := removeTree st.fs (outputDirOf id) } id,
           Except.ok ("deleted", id)) := by
      simp [delete_job, hl2, hd, hrm]
    refine ⟨hdel, ?_, ?_⟩
    · rw [hdel]
      simp [get_job_status, lookupJob, removeJob, alookup_adelete_self]
    · rw [hdel]
      simp [delete_job, removeJob, alookup_adelete_self]
  · intro j m hl hd hrm
    have hl2 : alookup st.jobs id = some j := hl
    have hdel : delete_job env st id = (st, .error (500, m)) := by
      simp [delete_job, hl2, hd, hrm]
    exact ⟨hdel, by rw [hdel]; exact hl⟩

theorem claim5_witness :
    lookupJob st2 0 = some jC ∧
    outputDirOf 0 ∈ st2.fs.dirs ∧
    (⟨.ok ()⟩ : DeleteEnv).rmtree = .ok () ∧
    (delete_job ⟨.ok ()⟩ st2 0
       = (removeJob { st2 with fs := removeTree st2.fs (outputDirOf 0) } 0,
          Except.ok ("deleted", 0)) ∧
     get_job_status (delete_job ⟨.ok ()⟩ st2 0).1 0 = .error (404, "Job not found") ∧
     (delete_job ⟨.ok ()⟩ (delete_job ⟨.ok ()⟩ st2 0).1 0).2 = .error (404, "Job not found")) :=
  ⟨rfl, List.mem_singleton.mpr rfl, rfl,
   (claim5_delete_semantics ⟨.ok ()⟩ ⟨.ok ()⟩ st2 0).2.2.1 jC rfl
     (List.mem_singleton.mpr rfl) rfl⟩

theorem step_none_pending {st : SysState} (h : st.pending = []) (e : Event) :
    (step none st e).pending = [] := by
  cases e with
  | submit env fn => simpa [step, separate_audio] using h
  | runWorker env => simp [step, h]
  | deleteJob env id =>
    cases hl : alookup st.jobs id with
    | none => simpa [step, delete_job, hl] using h
    | some j =>
      by_cases hd : outputDirOf id ∈ st.fs.dirs
      · cases hrm : env.rmtree with
        | exn m => simpa [step, delete_job, hl, hd, hrm] using h
        | ok u => simpa [step, delete_job, hl, hd, hrm, removeJob] using h
      · simpa [step, delete_job, hl, hd, removeJob] using h

theorem run_none_pending (fs : FS) (es : List Event) :
    (run none (initSt fs) es).pending = [] := by
  have hgen : ∀ st : SysState, st.pending = [] → (run none st es).pending = [] := by
    induction es with
    | nil => intro st h; exact h
    | cons e es ih => intro st h; exact ih _ (step_none_pending h e)
  exact hgen _ rfl

/-- C9: the worker's "Model not loaded" branch is unreachable for
dispatched jobs: Submit dispatches a worker only when the separator is
loaded (with no model it returns 503 and changes nothing), so under an
unloaded separator no task is ever pending; and when the fixed startup
separator is loaded, `process_separation` on an existing job record takes
the `workerRun` path, never the branch embedding lines 125-126. -/
theorem claim9_model_check_unreachable (sep : Option Separator) (fs : FS) (es : List Event) :
    (∀ t ∈ (run sep (initSt fs) es).pending, sep ≠ none) ∧
    (∀ (env : SubmitEnv) (fn : String) (st : SysState),
       separate_audio none env fn st = (st, .err 503 "Model not loaded")) ∧
    (∀ (s : Separator) (env : WorkerEnv) (jid : Nat) (ip od : String) (st : SysState)
       (j : JobStatus), lookupJob st jid = some j →
       processSeparation (some s) env jid ip od st = (workerRun s env jid ip od st, false)) := by
  refine ⟨?_, ?_, ?_⟩
  · intro t ht hc
    subst hc
    rw [run_none_pending fs es] at ht
    cases ht
  · intro env fn st
    rfl
  · intro s env jid ip od st j hl
    have hl2 : alookup st.jobs jid = some j := hl
    simp [processSeparation, hl2]

theorem claim9_witness :
    (⟨0, inputPathOf 0 "a.wav", outputDirOf 0⟩ : WorkerTask) ∈ st1.pending ∧
    some sepC ≠ none ∧
    lookupJob st1 0 = some (freshJob 0) ∧
    processSeparation (some sepC) envOkW 0 "input/0_a.wav" "output/0" st1
      = (workerRun sepC envOkW 0 "input/0_a.wav" "output/0" st1, false) :=
  ⟨List.mem_singleton.mpr rfl,
   (claim9_model_check_unreachable (some sepC) fsE [.submit subOk "a.wav"]).1
     ⟨0, inputPathOf 0 "a.wav", outputDirOf 0⟩ (List.mem_singleton.mpr rfl),
   rfl,
   (claim9_model_check_unreachable (some sepC) fsE [.submit subOk "a.wav"]).2.2 sepC envOkW 0
     "input/0_a.wav" "output/0" st1 (freshJob 0) rfl⟩

theorem mem_insertStr {x y : String} {xs : List String} (h : x ∈ xs) : x ∈ insertStr y xs := by
  simp only [insertStr]
  by_cases hc : y ∈ xs
  · rw [if_pos hc]; exact h
  · rw [if_neg hc]; exact List.mem_append_left _ h

theorem mem_files_foldl {l : List Eff} (hnd : ∀ p, Eff.deleteFile p ∉ l) :
    ∀ (fs : FS) (x : String), x ∈ fs.files → x ∈ (l.foldl applyEffFS fs).files := by
  induction l with
  | nil => intro fs x hx; exact hx
  | cons e es ih =>
    intro fs x hx
    have hnd2 : ∀ p, Eff.deleteFile p ∉ es := fun p hp => hnd p (List.mem_cons_of_mem _ hp)
    have hx2 : x ∈ (applyEffFS fs e).files := by
      cases e with
      | setStatus a => exact hx
      | setProgress a => exact hx
      | setError a => exact hx
      | setStems a => exact hx
      | mkdirDir d => exact hx
      | writeFile q => exact mem_insertStr hx
      | deleteFile q => exact absurd (List.mem_cons_self _ _) (hnd q)
    simpa using ih hnd2 (applyEffFS fs e) x hx2

theorem workerEffs_fail {s : Separator} {env : WorkerEnv} {ip od m : String}
    (hm : (workerBody s env ip od).2.2 = some m) :
    workerEffs s env ip od
      = [.setStatus "processing", .setProgress 0] ++ (workerBody s env ip od).1
          ++ [.setStatus "failed", .setError m] := by
  rcases hwb : workerBody s env ip od with ⟨effs, stems, r⟩
  rw [hwb] at hm
  simp only at hm
  subst hm
  simp [workerEffs, hwb]

theorem no_deleteFile_workerEffs_fail {s : Separator} {env : WorkerEnv} {ip od m : String}
    (hm : (workerBody s env ip od).2.2 = some m) :
    ∀ p, Eff.deleteFile p ∉ workerEffs s env ip od := by
  rcases workerBody_cases s env ip od with
    ⟨m2, hwb⟩ | ⟨m2, hwb⟩ | ⟨m2, hwb⟩ | ⟨m2, effs, hwb, hwf⟩ | ⟨stems, hwb⟩
  · intro p; simp [workerEffs, hwb]
  · intro p; simp [workerEffs, hwb]
  · intro p; simp [workerEffs, hwb]
  · intro p hmem
    simp only [workerEffs, hwb] at hmem
    rcases List.mem_append.mp hmem with h1 | h2
    · rcases List.mem_append.mp h1 with h3 | h4
      · simp at h3
      · rcases List.mem_append.mp h4 with h5 | h6
        · simp at h5
        · obtain ⟨q, hq⟩ := hwf _ h6
          exact Eff.noConfusion hq
    · simp at h2
  · rw [hwb] at hm
    simp at hm

/-- C8: the staged input artifact is deleted exactly on the success path,
immediately after the stem files are written and before the job is marked
completed (visible in the exact effect sequence); on any failure path no
input deletion is performed and the staged input survives; and a failure
before the stem-saving step (decode, resample, or inference failure)
leaves the filesystem — in particular the output directory — untouched. -/
theorem claim8_input_artifact (s : Separator) (env : WorkerEnv) (jid : Nat) (ip od : String)
    (st : SysState) (j : JobStatus) (hj : lookupJob st jid = some j) :
    ((workerBody s env ip od).2.2 = none →
       workerBody s env ip od =
         ([.setProgress (1/5), .setProgress (4/5), .mkdirDir od]
             ++ s.sources.map (fun n => Eff.writeFile (stemPathOf od n))
             ++ [.deleteFile ip, .setStatus "completed", .setProgress 1,
                 .setStems (workerBody s env ip od).2.1],
          (workerBody s env ip od).2.1, none)) ∧
    (∀ m, (workerBody s env ip od).2.2 = some m →
       Eff.deleteFile ip ∉ (workerBody s env ip od).1 ∧
       (ip ∈ st.fs.files →
          ip ∈ (processSeparation (some s) env jid ip od st).1.fs.files)) ∧
    (∀ m, env.load = .exn m →
       (processSeparation (some s) env jid ip od st).1.fs = st.fs) ∧
    (∀ m (w : Waveform) (sr : Nat), env.load = .ok (w, sr) →
       resampleIfNeeded s env w sr = .exn m →
       (processSeparation (some s) env jid ip od st).1.fs = st.fs) ∧
    (∀ m (w : Waveform) (sr : Nat) (w1 : Waveform), env.load = .ok (w, sr) →
       resampleIfNeeded s env w sr = .ok w1 →
       env.applyModel (ensureStereo w1) = .exn m →
       (processSeparation (some s) env jid ip od st).1.fs = st.fs) := by
  have hj2 : alookup st.jobs jid = some j := hj
  have hps : processSeparation (some s) env jid ip od st
      = (workerRun s env jid ip od st, false) := by
    simp [processSeparation, hj2]
  refine ⟨?_, ?_, ?_, ?_, ?_⟩
  · intro hok
    rcases workerBody_cases s env ip od with
      ⟨m2, hwb⟩ | ⟨m2, hwb⟩ | ⟨m2, hwb⟩ | ⟨m2, effs, hwb, hwf⟩ | ⟨stems, hwb⟩
    · rw [hwb] at hok; simp at hok
    · rw [hwb] at hok; simp at hok
    · rw [hwb] at hok; simp at hok
    · rw [hwb] at hok; simp at hok
    · rw [hwb]
  · intro m hm
    refine ⟨?_, ?_⟩
    · intro hmem
      refine no_deleteFile_workerEffs_fail hm ip ?_
      rw [workerEffs_fail hm]
      exact List.mem_append_left _ (List.mem_append_right _ hmem)
    · intro hip
      rw [hps]
      exact mem_files_foldl (no_deleteFile_workerEffs_fail hm) st.fs ip hip
  · intro m hload
    have hwb : workerBody s env ip od = ([], [], some m) := by
      simp [workerBody, hload]
    rw [hps]
    simp [workerRun, applyEffs, workerEffs, hwb, applyEffFS]
  · intro m w sr hload hres
    have hwb : workerBody s env ip od = ([], [], some m) := by
      simp [workerBody, hload, hres]
    rw [hps]
    simp [workerRun, applyEffs, workerEffs, hwb, applyEffFS]
  · intro m w sr w1 hload hres happ
    have hwb : workerBody s env ip od = ([.setProgress (1/5)], [], some m) := by
      simp [workerBody, hload, hres, happ]
    rw [hps]
    simp [workerRun, applyEffs, workerEffs, hwb, applyEffFS]

theorem claim8_witness :
    lookupJob st1 0 = some (freshJob 0) ∧
    (workerBody sepC envOkW "input/0_a.wav" "output/0").2.2 = none ∧
    workerBody sepC envOkW "input/0_a.wav" "output/0"
      = ([.setProgress (1/5), .setProgress (4/5), .mkdirDir "output/0"]
            ++ sepC.sources.map (fun n => Eff.writeFile (stemPathOf "output/0" n))
            ++ [.deleteFile "input/0_a.wav", .setStatus "completed", .setProgress 1,
                .setStems (workerBody sepC envOkW "input/0_a.wav" "output/0").2.1],
         (workerBody sepC envOkW "input/0_a.wav" "output/0").2.1, none) ∧
    envLoadFailW.load = .exn "decode error" ∧
    (Eff.deleteFile "input/0_a.wav"
        ∉ (workerBody sepC envLoadFailW "input/0_a.wav" "output/0").1 ∧
     ("input/0_a.wav" ∈ st1.fs.files →
        "input/0_a.wav" ∈
          (processSeparation (some sepC) envLoadFailW 0 "input/0_a.wav" "output/0" st1).1.fs.files)) ∧
    (processSeparation (some sepC) envLoadFailW 0 "input/0_a.wav" "output/0" st1).1.fs = st1.fs :=
  ⟨rfl, rfl,
   (claim8_input_artifact sepC envOkW 0 "input/0_a.wav" "output/0" st1
      (freshJob 0) rfl).1 rfl,
   rfl,
   (claim8_input_artifact sepC envLoadFailW 0 "input/0_a.wav" "output/0" st1
      (freshJob 0) rfl).2.1 "decode error" rfl,
   (claim8_input_artifact sepC envLoadFailW 0 "input/0_a.wav" "output/0" st1
      (freshJob 0) rfl).2.2.1 "decode error" rfl⟩

theorem download_stem_ok_inv {st : SysState} {id : Nat} {name : String} {resp : FileResp}
    (h : download_stem st id name = Except.ok resp) :
    ∃ j ms, lookupJob st id = some j ∧ j.status = "completed" ∧ j.stems = some ms ∧
      alookupS ms name = some resp.path ∧ resp.media_type = "audio/wav" ∧
      resp.path ∈ st.fs.files := by
  cases hl : lookupJob st id with
  | none => simp [download_stem, hl] at h
  | some j =>
    by_cases hc : j.status = "completed"
    · cases hst : j.stems with
      | none => simp [download_stem, hl, hc, hst] at h
      | some ms =>
        cases hlk : alookupS ms name with
        | none => simp [download_stem, hl, hc, hst, hlk] at h
        | some p =>
          by_cases hmem : p ∈ st.fs.files
          · have hd : download_stem st id name
                = Except.ok ⟨p, "audio/wav", name ++ ".wav"⟩ := by
              simp [download_stem, hl, hc, hst, hlk, hmem]
            rw [hd] at h
            obtain rfl := Except.ok.inj h
            exact ⟨j, ms, rfl, hc, hst, hlk, rfl, hmem⟩
          · simp [download_stem, hl, hc, hst, hlk, hmem] at h
    · simp [download_stem, hl, hc] at h

/-- C10: a successful DownloadStem on a job observed completed serves
exactly the artifact recorded under the requested stem name in that job's
stems mapping at completion time: completed records are never mutated by
any later events, and the served path is obtained solely by dictionary
lookup of the caller-supplied name in the recorded mapping (the name is a
lookup key, never a path component). -/
theorem claim10_download_serves_recorded (sep : Option Separator) (fs : FS)
    (es1 es2 : List Event) (id : Nat) (name : String) (j : JobStatus) (resp : FileResp)
    (h1 : lookupJob (run sep (initSt fs) es1) id = some j)
    (hc : j.status = "completed")
    (hdl : download_stem (run sep (run sep (initSt fs) es1) es2) id name = Except.ok resp) :
    ∃ ms, j.stems = some ms ∧ alookupS ms name = some resp.path ∧
      resp.media_type = "audio/wav" := by
  obtain ⟨j2, ms2, hl2, hc2, hst2, hlk2, hmt, _⟩ := download_stem_ok_inv hdl
  have invA := (inv_run sep (initSt fs) es1 (inv_init fs)).1
  have h1a : alookup (run sep (initSt fs) es1).jobs id = some j := h1
  have hid : id < (run sep (initSt fs) es1).ctr := invA.idBound id j h1a
  have obs := (inv_run sep (run sep (initSt fs) es1) es2 invA).2
  have hl2a : alookup (run sep (run sep (initSt fs) es1) es2).jobs id = some j2 := hl2
  obtain ⟨j1, hl1, _, hstab⟩ := obs.2 id j2 hid hl2a
  obtain rfl := Option.some.inj (hl1.symm.trans h1a)
  have hj2 := hstab hc
  subst hj2
  exact ⟨ms2, hst2, hlk2, hmt⟩

theorem claim10_witness :
    lookupJob (run (some sepC) (initSt fsE)
        [.submit subOk "a.wav", .runWorker envOkW]) 0 = some jC ∧
    jC.status = "completed" ∧
    download_stem (run (some sepC)
        (run (some sepC) (initSt fsE) [.submit subOk "a.wav", .runWorker envOkW]) [])
        0 "vocals"
      = Except.ok ⟨"output/0/vocals.wav", "audio/wav", "vocals" ++ ".wav"⟩ ∧
    (∃ ms, jC.stems = some ms ∧
       alookupS ms "vocals"
         = some (FileResp.mk "output/0/vocals.wav" "audio/wav" ("vocals" ++ ".wav")).path ∧
       (FileResp.mk "output/0/vocals.wav" "audio/wav" ("vocals" ++ ".wav")).media_type
         = "audio/wav") :=
  ⟨rfl, rfl, rfl,
   claim10_download_serves_recorded (some sepC) fsE
     [.submit subOk "a.wav", .runWorker envOkW] [] 0 "vocals" jC
     ⟨"output/0/vocals.wav", "audio/wav", "vocals" ++ ".wav"⟩ rfl rfl rfl⟩

end EchoStems
